import Mathlib

/-!
# Verification of the OSC codec and relay core (`src/lib.rs`)

Shallow embedding of the Rust sources of `Rust-OSC`:

* bytes are modelled as `Nat` (values below 256 where the code produces them);
* a Rust `String` is modelled by its UTF-8 byte sequence (`List Nat`);
* `i32` values are modelled as `Int` together with the two's-complement
  conversion used by `to_be_bytes` / `from_be_bytes`;
* `f32` values are modelled by their 32-bit IEEE-754 bit pattern (`Nat`),
  which is exactly what `to_be_bytes` / `from_be_bytes` read and write;
* fallible functions return `Except`.
-/

/-- One continuation byte `0x80..=0xBF`. -/
def isUtf8Cont (b : Nat) : Bool := 128 ≤ b && b ≤ 191

/-- Valid second byte of a three-byte sequence led by `b0`
(`E0 A0..BF`, `ED 80..9F`, otherwise `80..BF`), as in Rust's
`run_utf8_validation`. -/
def validSecondOf3 (b0 b1 : Nat) : Bool :=
  if b0 = 224 then 160 ≤ b1 && b1 ≤ 191
  else if b0 = 237 then 128 ≤ b1 && b1 ≤ 159
  else isUtf8Cont b1

/-- Valid second byte of a four-byte sequence led by `b0`
(`F0 90..BF`, `F4 80..8F`, otherwise `80..BF`), as in Rust's
`run_utf8_validation`. -/
def validSecondOf4 (b0 b1 : Nat) : Bool :=
  if b0 = 240 then 144 ≤ b1 && b1 ≤ 191
  else if b0 = 244 then 128 ≤ b1 && b1 ≤ 143
  else isUtf8Cont b1

/-- When the input starts with a complete well-formed UTF-8 scalar encoding,
split it off: `some (c, rest)` with `c` the 1–4 bytes of that character.
Returns `none` on empty input and on an invalid or truncated head sequence.
The acceptance table is Rust's `run_utf8_validation`. -/
def utf8Split (l : List Nat) : Option (List Nat × List Nat) :=
  match l with
  | [] => none
  | b0 :: r0 =>
    if b0 < 128 then some ([b0], r0)
    else if 194 ≤ b0 && b0 ≤ 223 then
      match r0 with
      | b1 :: r1 => if isUtf8Cont b1 then some ([b0, b1], r1) else none
      | [] => none
    else if 224 ≤ b0 && b0 ≤ 239 then
      match r0 with
      | b1 :: b2 :: r2 =>
        if validSecondOf3 b0 b1 && isUtf8Cont b2 then some ([b0, b1, b2], r2)
        else none
      | _ => none
    else if 240 ≤ b0 && b0 ≤ 244 then
      match r0 with
      | b1 :: b2 :: b3 :: r3 =>
        if validSecondOf4 b0 b1 && isUtf8Cont b2 && isUtf8Cont b3 then
          some ([b0, b1, b2, b3], r3)
        else none
      | _ => none
    else none

/-- Number of bytes Rust's lossy decoder skips for one ill-formed sequence:
the length of the maximal valid prefix of a multi-byte sequence (Rust's
`error_len`, with a truncated sequence at end of input consuming the rest). -/
def utf8ErrLen (l : List Nat) : Nat :=
  match l with
  | b0 :: b1 :: rest =>
    if (224 ≤ b0 && b0 ≤ 239) && validSecondOf3 b0 b1 then 2
    else if (240 ≤ b0 && b0 ≤ 244) && validSecondOf4 b0 b1 then
      match rest with
      | b2 :: _ => if isUtf8Cont b2 then 3 else 2
      | [] => 2
    else 1
  | _ => 1

/-- Fuel-based worker for `utf8Lossy`. Every step consumes at least one input
byte, so fuel equal to the input length (supplied by the wrapper) always
suffices; the out-of-fuel arm is never reached from the wrapper. -/
def utf8LossyF : Nat → List Nat → List Nat
  | _, [] => []
  | 0, _ :: _ => []
  | fuel + 1, b0 :: r0 =>
    match utf8Split (b0 :: r0) with
    | some (c, rest) => c ++ utf8LossyF fuel rest
    | none => 239 :: 191 :: 189 :: utf8LossyF fuel ((b0 :: r0).drop (utf8ErrLen (b0 :: r0)))

/-- Rust's `String::from_utf8_lossy(bytes).to_string().as_bytes()`: re-encodes the
bytes, copying each well-formed scalar encoding and replacing each maximal
valid prefix of an ill-formed sequence with U+FFFD (`EF BF BD`), following
Rust's validation table; a truncated sequence at end of input becomes a
single replacement character. -/
def utf8Lossy (l : List Nat) : List Nat := utf8LossyF l.length l

/-- Fuel-based worker for `validUtf8`. -/
def validUtf8F : Nat → List Nat → Bool
  | _, [] => true
  | 0, _ :: _ => false
  | fuel + 1, b0 :: r0 =>
    match utf8Split (b0 :: r0) with
    | some (_, rest) => validUtf8F fuel rest
    | none => false

/-- Structural UTF-8 validity of a byte list (the invariant every Rust
`String` satisfies by construction). -/
def validUtf8 (l : List Nat) : Bool := validUtf8F l.length l

/-- A successful `utf8Split` is a decomposition of the input, and consumes at
least one byte. -/
theorem utf8Split_some {l c rest : List Nat}
    (h : utf8Split l = some (c, rest)) : l = c ++ rest ∧ 0 < c.length := by
  unfold utf8Split at h
  split at h
  · exact absurd h (by simp)
  · split at h
    · simp only [Option.some.injEq, Prod.mk.injEq] at h
      obtain ⟨hc, hr⟩ := h
      subst hc; subst hr; simp
    · split at h
      · split at h
        · split at h
          · simp only [Option.some.injEq, Prod.mk.injEq] at h
            obtain ⟨hc, hr⟩ := h
            subst hc; subst hr; simp
          · simp_all
        · simp_all
      · split at h
        · split at h
          · split at h
            · simp only [Option.some.injEq, Prod.mk.injEq] at h
              obtain ⟨hc, hr⟩ := h
              subst hc; subst hr; simp
            · simp_all
          · simp_all
        · split at h
          · split at h
            · split at h
              · simp only [Option.some.injEq, Prod.mk.injEq] at h
                obtain ⟨hc, hr⟩ := h
                subst hc; subst hr; simp
              · simp_all
            · simp_all
          · simp_all

/-- On valid UTF-8 input, the lossy re-decode is the identity (worker form). -/
theorem utf8LossyF_of_valid : ∀ (fuel : Nat) (l : List Nat),
    l.length ≤ fuel → validUtf8F fuel l = true → utf8LossyF fuel l = l := by
  intro fuel
  induction fuel with
  | zero =>
    intro l hlen hv
    cases l with
    | nil => rfl
    | cons b r => simp [validUtf8F] at hv
  | succ fuel ih =>
    intro l hlen hv
    cases l with
    | nil => rfl
    | cons b0 r0 =>
      simp only [utf8LossyF, validUtf8F] at hv ⊢
      cases hsplit : utf8Split (b0 :: r0) with
      | none => rw [hsplit] at hv; simp at hv
      | some p =>
        obtain ⟨c, rest⟩ := p
        rw [hsplit] at hv
        dsimp only at hv ⊢
        obtain ⟨hdec, hpos⟩ := utf8Split_some hsplit
        have hrest : rest.length ≤ fuel := by
          have := congrArg List.length hdec
          simp [List.length_append] at this
          simp [List.length_cons] at hlen
          omega
        rw [ih rest hrest hv, ← hdec]

/-- On valid UTF-8 input, the lossy re-decode is the identity. -/
theorem utf8Lossy_of_valid (l : List Nat) (h : validUtf8 l = true) :
    utf8Lossy l = l :=
  utf8LossyF_of_valid l.length l (Nat.le_refl _) h

example : utf8Lossy [47, 116, 101] = [47, 116, 101] := by decide
example : utf8Lossy [255] = [239, 191, 189] := by decide
example : utf8Lossy [47, 255, 65] = [47, 239, 191, 189, 65] := by decide
example : utf8Lossy [224, 160] = [239, 191, 189] := by decide
example : validUtf8 [47, 255] = false := by decide
example : validUtf8 [228, 189, 160] = true := by decide

/-! ## The OSC message type (`OscMessage`, `OscArg` in `src/lib.rs`) -/

/-- The argument type `OscArg`: `Int(i32)` keeps the mathematical integer value, `Float(f32)`
keeps the 32-bit IEEE-754 bit pattern (the exact content of
`to_be_bytes`/`from_be_bytes`), `String` keeps the UTF-8 bytes. -/
inductive OscArg where
  | Int (value : Int)
  | Float (bits : Nat)
  | String (value : List Nat)
  | Bool (value : Bool)
  deriving DecidableEq

/-- A Rust `OscArg` value is well formed when its payload is representable in
the Rust type: `i32` range for `Int`, a 32-bit pattern for `Float`, valid
UTF-8 for `String`. -/
def OscArg.wf : OscArg → Prop
  | .Int v => -2147483648 ≤ v ∧ v < 2147483648
  | .Float bits => bits < 4294967296
  | .String s => validUtf8 s = true
  | .Bool _ => True

instance (a : OscArg) : Decidable a.wf := by
  cases a <;> simp only [OscArg.wf] <;> infer_instance

/-- The message type `OscMessage`: address pattern (UTF-8 bytes of the Rust `String`) plus the
ordered argument list. -/
structure OscMessage where
  address : List Nat
  args : List OscArg
  deriving DecidableEq

/-- The type-tag byte the encoder emits for an argument
(`','` is prepended separately). -/
def tagByte : OscArg → Nat
  | .Int _ => 105   -- 'i'
  | .Float _ => 102 -- 'f'
  | .String _ => 115 -- 's'
  | .Bool value => if value then 84 else 70 -- 'T' / 'F'

/-- The padding loop `while buffer.len() % 4 != 0` pushing zero bytes. -/
def padTo4 (l : List Nat) : List Nat :=
  l ++ List.replicate ((4 - l.length % 4) % 4) 0

/-- Rust's `i32::to_be_bytes` composed with the `Vec` push: the two's-complement
bit pattern of an `i32` as a natural number below `2^32`. -/
def i32Pattern (v : Int) : Nat := (v % 4294967296).toNat

/-- Rust's `i32::from_be_bytes`: reinterpret a 32-bit pattern as a signed value. -/
def i32OfPattern (n : Nat) : Int :=
  if n < 2147483648 then (n : Int) else (n : Int) - 4294967296

/-- Big-endian 4-byte encoding of (the low 32 bits of) `n`. -/
def be4 (n : Nat) : List Nat :=
  [n / 16777216 % 256, n / 65536 % 256, n / 256 % 256, n % 256]

/-- Rust's `u32::from_be_bytes` on `data[pos..pos + 4]`. -/
def be4At (data : List Nat) (pos : Nat) : Nat :=
  data.getD pos 0 * 16777216 + data.getD (pos + 1) 0 * 65536 +
    data.getD (pos + 2) 0 * 256 + data.getD (pos + 3) 0

/-- One iteration of the argument-encoding loop of `OscMessage::serialize`:
append the payload of `arg` to `buffer`. -/
def pushArg (buffer : List Nat) (arg : OscArg) : List Nat :=
  match arg with
  | .Int value => buffer ++ be4 (i32Pattern value)
  | .Float bits => buffer ++ be4 bits
  | .String value => padTo4 (buffer ++ value ++ [0])
  | .Bool _ => buffer

/-- The encoder `OscMessage::serialize` (`src/lib.rs:94-146`): null-terminated address
padded to 4 bytes, `','`-prefixed null-terminated tag string padded to
4 bytes, then the argument payloads in order. -/
def OscMessage.serialize (m : OscMessage) : List Nat :=
  m.args.foldl pushArg
    (padTo4 (padTo4 (m.address ++ [0]) ++ 44 :: m.args.map tagByte ++ [0]))

/-! ## The decoder (`OscMessage::deserialize` in `src/lib.rs:148-231`) -/

/-- The distinct error signals of `deserialize` (the Rust `&'static str`
messages, as an enumeration). -/
inductive DecodeErr where
  | tooShort            -- "資料長度不足以解析 OSC 訊息"
  | badAddress          -- "無效的位址格式"
  | badTypeTagStart     -- "無效的類型標籤格式"
  | unterminatedTags    -- "類型標籤未終止"
  | intDataShort        -- "整數參數資料不足"
  | floatDataShort      -- "浮點數參數資料不足"
  | stringDataShort     -- "字串參數資料不足"
  | stringUnterminated  -- "字串參數未終止"
  | unknownTag          -- "未知的類型標籤"
  deriving DecidableEq

/-- The loop `while i < data.len() && data[i] != 0` scanning `l`, with `i`
the absolute index of the head of `l`. -/
def scanZero : List Nat → Nat → Nat
  | [], i => i
  | b :: r, i => if b = 0 then i else scanZero r (i + 1)

/-- First index `j ≥ i` with `data[j] = 0`, or `data.length` if there is
none (the null-scanning loops of `deserialize`). -/
def findZero (data : List Nat) (i : Nat) : Nat := scanZero (data.drop i) i

/-- The tag-driven argument loop of `deserialize`: walk the type-tag bytes,
reading each argument's payload at the running cursor `pos`. -/
def parseArgs (data : List Nat) : List Nat → Nat → Except DecodeErr (List OscArg)
  | [], _ => .ok []
  | t :: ts, pos =>
    if t = 105 then
      if pos + 4 > data.length then .error .intDataShort
      else
        match parseArgs data ts (pos + 4) with
        | .error e => .error e
        | .ok args => .ok (.Int (i32OfPattern (be4At data pos)) :: args)
    else if t = 102 then
      if pos + 4 > data.length then .error .floatDataShort
      else
        match parseArgs data ts (pos + 4) with
        | .error e => .error e
        | .ok args => .ok (.Float (be4At data pos) :: args)
    else if t = 115 then
      if pos ≥ data.length then .error .stringDataShort
      else
        let strEnd := findZero data pos
        if strEnd ≥ data.length then .error .stringUnterminated
        else
          match parseArgs data ts ((strEnd + 1 + 3) / 4 * 4) with
          | .error e => .error e
          | .ok args => .ok (.String (utf8Lossy ((data.drop pos).take (strEnd - pos))) :: args)
    else if t = 84 ∨ t = 70 then
      match parseArgs data ts pos with
      | .error e => .error e
      | .ok args => .ok (.Bool (t = 84) :: args)
    else .error .unknownTag

/-- The decoder `OscMessage::deserialize` (`src/lib.rs:148-231`). -/
def OscMessage.deserialize (data : List Nat) : Except DecodeErr OscMessage :=
  if data.length < 4 then .error .tooShort
  else
    let addrEnd := findZero data 0
    if addrEnd ≥ data.length ∨ addrEnd = 0 then .error .badAddress
    else
      let address := utf8Lossy (data.take addrEnd)
      let pos := (addrEnd + 1 + 3) / 4 * 4
      if pos ≥ data.length ∨ data.getD pos 0 ≠ 44 then .error .badTypeTagStart
      else
        let typeEnd := findZero data (pos + 1)
        if typeEnd ≥ data.length then .error .unterminatedTags
        else
          let typeTags := (data.drop (pos + 1)).take (typeEnd - (pos + 1))
          match parseArgs data typeTags ((typeEnd + 1 + 3) / 4 * 4) with
          | .error e => .error e
          | .ok args => .ok ⟨address, args⟩

deriving instance DecidableEq for Except

example :
    OscMessage.serialize ⟨[47, 116, 101, 115, 116], [.Int 101]⟩ =
      [47, 116, 101, 115, 116, 0, 0, 0, 44, 105, 0, 0, 0, 0, 0, 101] := by
  decide

example :
    OscMessage.deserialize [47, 116, 101, 115, 116, 0, 0, 0, 44, 105, 0, 0, 0, 0, 0, 101] =
      .ok ⟨[47, 116, 101, 115, 116], [.Int 101]⟩ := by
  decide

example :
    OscMessage.deserialize
      (OscMessage.serialize ⟨[47], [.Int (-1), .Float 3212836864, .String [104, 105], .Bool true, .Bool false]⟩) =
      .ok ⟨[47], [.Int (-1), .Float 3212836864, .String [104, 105], .Bool true, .Bool false]⟩ := by
  decide

example :
    OscMessage.deserialize (OscMessage.serialize ⟨[47], [.String [0]]⟩) =
      .ok ⟨[47], [.String []]⟩ := by
  decide

/-! ## Configuration (`Config`, `ConfigError` in `src/lib.rs:10-55`) -/

/-- Stand-in for `std::net::SocketAddr`: `Config::validate` never inspects a
target beyond its presence in the list. -/
structure SocketAddr where
  id : Nat
  deriving DecidableEq

/-- The `ConfigError` enumeration. `Io` and `Yaml` wrap foreign error values
and are produced only by `Config::load_from_file`, never by `validate`. -/
inductive ConfigError where
  | Io
  | Yaml
  | NoListenPorts
  | NoTargets
  | InvalidPort (port : Nat)
  deriving DecidableEq

/-- The configuration `Config`: listen ports are `u16` values (naturals below 65536). -/
structure Config where
  listen_ports : List Nat
  targets : List SocketAddr
  deriving DecidableEq

/-- The validator `Config::validate` (`src/lib.rs:24-40`). -/
def Config.validate (c : Config) : Except ConfigError Unit :=
  if c.listen_ports.isEmpty then .error .NoListenPorts
  else if c.targets.isEmpty then .error .NoTargets
  else
    match c.listen_ports.find? (fun port => port = 0) with
    | some port => .error (.InvalidPort port)
    | none => .ok ()

/-! ## Delivery channel and listener gate
(`Distributor`, `Receiver` in `src/lib.rs:278-381`) -/

/-- The state of a `tokio::sync::broadcast` channel, modelled from its
documented semantics as used here: a bounded queue of payloads and the count
of live subscriptions. `send` is synchronous; with zero receivers it returns
`Err(payload)` without storing anything, otherwise it enqueues, evicting the
oldest entry when the buffer is full (the lag mechanism). -/
structure BroadcastChannel where
  capacity : Nat
  receiverCount : Nat
  queue : List (List Nat)
  deriving DecidableEq

/-- Models `broadcast::Sender::send`, returning the updated channel and whether the
payload was accepted. -/
def BroadcastChannel.send (ch : BroadcastChannel) (payload : List Nat) :
    BroadcastChannel × Bool :=
  if ch.receiverCount = 0 then (ch, false)
  else
    let q := ch.queue ++ [payload]
    ({ ch with queue := if ch.capacity < q.length then q.drop (q.length - ch.capacity) else q },
      true)

/-- The fan-out `Distributor` (`src/lib.rs:278-302`): per-target senders and the shared
broadcast channel. -/
structure Distributor where
  senders : List SocketAddr
  chan : BroadcastChannel
  deriving DecidableEq

/-- The publisher `Distributor::send` (`src/lib.rs:295-297`): `let _ = self.tx.send(payload);`
— the result of the broadcast send is discarded, so the function is total and
returns no error regardless of the subscriber count. -/
def Distributor.send (d : Distributor) (payload : List Nat) : Distributor :=
  { d with chan := (d.chan.send payload).1 }

/-- The body of the receive loop of `Receiver::run` (`src/lib.rs:372-378`)
for one datagram: gate the raw bytes through `deserialize`; on failure the
datagram is dropped (`continue`), on success the original bytes are the
published payload. -/
def receiverStep (datagram : List Nat) : Option (List Nat) :=
  match OscMessage.deserialize datagram with
  | .error _ => none
  | .ok _ => some datagram

/-! ## List access helpers -/

theorem getD_append_plus (A B : List Nat) (k : Nat) :
    (A ++ B).getD (A.length + k) 0 = B.getD k 0 := by
  induction A with
  | nil => simp
  | cons a A ih =>
    have h : (a :: A).length + k = (A.length + k) + 1 := by simp; omega
    rw [h]
    simpa using ih

theorem getD_append_lt (A B : List Nat) (k : Nat) (h : k < A.length) :
    (A ++ B).getD k 0 = A.getD k 0 := by
  induction A generalizing k with
  | nil => simp at h
  | cons a A ih =>
    cases k with
    | zero => simp
    | succ k =>
      simp only [List.length_cons] at h
      simpa using ih k (by omega)

theorem drop_append_plus (A B : List Nat) (k : Nat) :
    (A ++ B).drop (A.length + k) = B.drop k := by
  induction A with
  | nil => simp
  | cons a A ih =>
    have h : (a :: A).length + k = (A.length + k) + 1 := by simp; omega
    rw [h]
    simp [ih]

theorem take_append_len (A B : List Nat) : (A ++ B).take A.length = A := by
  induction A with
  | nil => simp
  | cons a A ih => simp [ih]

theorem drop_append_le (A B : List Nat) (k : Nat) (h : k ≤ A.length) :
    (A ++ B).drop k = A.drop k ++ B := by
  induction A generalizing k with
  | nil =>
    have : k = 0 := by simpa using h
    simp [this]
  | cons a A ih =>
    cases k with
    | zero => simp
    | succ k =>
      simp only [List.length_cons] at h
      simpa using ih k (by omega)

theorem take_append_le (A B : List Nat) (k : Nat) (h : k ≤ A.length) :
    (A ++ B).take k = A.take k := by
  induction A generalizing k with
  | nil =>
    have : k = 0 := by simpa using h
    simp [this]
  | cons a A ih =>
    cases k with
    | zero => simp
    | succ k =>
      simp only [List.length_cons] at h
      simpa using ih k (by omega)

/-! ## `scanZero` / `findZero` characterizations -/

theorem scanZero_ge (l : List Nat) : ∀ i, i ≤ scanZero l i := by
  induction l with
  | nil => intro i; simp [scanZero]
  | cons b r ih =>
    intro i
    simp only [scanZero]
    split
    · exact Nat.le_refl i
    · exact Nat.le_trans (Nat.le_succ i) (ih (i + 1))

theorem scanZero_le (l : List Nat) : ∀ i, scanZero l i ≤ i + l.length := by
  induction l with
  | nil => intro i; simp [scanZero]
  | cons b r ih =>
    intro i
    simp only [scanZero]
    split
    · simp
    · have := ih (i + 1)
      simp only [List.length_cons]
      omega

/-- Scanning past a zero-free block. -/
theorem scanZero_append_ne (l r : List Nat) (hl : ∀ b ∈ l, b ≠ 0) :
    ∀ i, scanZero (l ++ r) i = scanZero r (i + l.length) := by
  induction l with
  | nil => intro i; simp
  | cons b l ih =>
    intro i
    have hb : b ≠ 0 := hl b (by simp)
    simp only [List.cons_append, scanZero, if_neg hb, List.append_eq]
    rw [ih (fun x hx => hl x (by simp [hx])) (i + 1)]
    congr 1
    simp
    omega

theorem scanZero_cons_zero (r : List Nat) (i : Nat) : scanZero (0 :: r) i = i := by
  simp [scanZero]

/-- A scan that found a zero strictly inside `l` is unaffected by appending. -/
theorem scanZero_append_found (l e : List Nat) :
    ∀ i, scanZero l i < i + l.length → scanZero (l ++ e) i = scanZero l i := by
  induction l with
  | nil => intro i h; simp [scanZero] at h
  | cons b r ih =>
    intro i h
    simp only [List.cons_append, scanZero]
    split
    · simp [scanZero, *]
    · rename_i hb
      simp only [scanZero, if_neg hb] at h ⊢
      exact ih (i + 1) (by simp only [List.length_cons] at h; omega)

/-- A scan that found no zero in `l` returns `i + l.length`. -/
theorem scanZero_eq_of_ne (l : List Nat) (hl : ∀ b ∈ l, b ≠ 0) (i : Nat) :
    scanZero l i = i + l.length := by
  have := scanZero_append_ne l [] hl i
  simpa [scanZero] using this

theorem findZero_of_ge (data : List Nat) (i : Nat) (h : data.length ≤ i) :
    findZero data i = i := by
  unfold findZero
  rw [List.drop_eq_nil_of_le h]
  simp [scanZero]

theorem findZero_ge (data : List Nat) (i : Nat) : i ≤ findZero data i :=
  scanZero_ge _ i

theorem findZero_le (data : List Nat) (i : Nat) (h : i ≤ data.length) :
    findZero data i ≤ data.length := by
  have h1 := scanZero_le (data.drop i) i
  have h2 : (data.drop i).length = data.length - i := by simp
  unfold findZero
  omega

/-- Appending cannot change a scan that terminated inside the data. -/
theorem findZero_append (data e : List Nat) (i : Nat) (hi : i ≤ data.length)
    (h : findZero data i < data.length) :
    findZero (data ++ e) i = findZero data i := by
  unfold findZero at h ⊢
  rw [drop_append_le data e i hi]
  have h2 : (data.drop i).length = data.length - i := by simp
  exact scanZero_append_found _ _ i (by omega)

/-! ## Structure of encoded frames -/

theorem tagByte_ne_zero (a : OscArg) : tagByte a ≠ 0 := by
  cases a with
  | Bool b => cases b <;> simp [tagByte]
  | _ => simp [tagByte]

theorem padTo4_eq_append (b t : List Nat) :
    padTo4 (b ++ t) =
      b ++ (t ++ List.replicate ((4 - (b.length + t.length) % 4) % 4) 0) := by
  simp [padTo4, List.length_append, List.append_assoc]

theorem padTo4_length (l : List Nat) :
    (padTo4 l).length = (l.length + 3) / 4 * 4 := by
  simp only [padTo4, List.length_append, List.length_replicate]
  omega

theorem padTo4_length_mod (l : List Nat) : (padTo4 l).length % 4 = 0 := by
  rw [padTo4_length]
  omega

/-- The bytes one argument contributes to the argument section of a frame
whose current length is `pos`. -/
def argChunk (pos : Nat) : OscArg → List Nat
  | .Int value => be4 (i32Pattern value)
  | .Float bits => be4 bits
  | .String value =>
      value ++ [0] ++ List.replicate ((4 - (pos + value.length + 1) % 4) % 4) 0
  | .Bool _ => []

theorem pushArg_eq_chunk (b : List Nat) (a : OscArg) :
    pushArg b a = b ++ argChunk b.length a := by
  cases a with
  | Int value => rfl
  | Float bits => rfl
  | String value =>
    simp [pushArg, argChunk, padTo4, List.length_append, List.append_assoc]
    omega
  | Bool value => simp [pushArg, argChunk]

/-- The whole argument section, starting at offset `pos`. -/
def argsBytesFrom : Nat → List OscArg → List Nat
  | _, [] => []
  | pos, a :: as => argChunk pos a ++ argsBytesFrom (pos + (argChunk pos a).length) as

theorem foldl_pushArg (args : List OscArg) :
    ∀ b : List Nat, args.foldl pushArg b = b ++ argsBytesFrom b.length args := by
  induction args with
  | nil => intro b; simp [argsBytesFrom]
  | cons a as ih =>
    intro b
    rw [List.foldl_cons, pushArg_eq_chunk, ih, argsBytesFrom]
    simp [List.append_assoc, List.length_append]

/-- The frame is the padded header followed by the argument section. -/
theorem serialize_decomp (m : OscMessage) :
    OscMessage.serialize m =
      padTo4 (padTo4 (m.address ++ [0]) ++ 44 :: m.args.map tagByte ++ [0]) ++
        argsBytesFrom
          (padTo4 (padTo4 (m.address ++ [0]) ++ 44 :: m.args.map tagByte ++ [0])).length
          m.args :=
  foldl_pushArg m.args _

/-! ## 32-bit big-endian arithmetic -/

theorem be4_length (n : Nat) : (be4 n).length = 4 := rfl

theorem be4At_append (front rest : List Nat) (n : Nat) (h : n < 4294967296) :
    be4At (front ++ (be4 n ++ rest)) front.length = n := by
  unfold be4At
  have h0 := getD_append_plus front (be4 n ++ rest) 0
  have h1 := getD_append_plus front (be4 n ++ rest) 1
  have h2 := getD_append_plus front (be4 n ++ rest) 2
  have h3 := getD_append_plus front (be4 n ++ rest) 3
  simp only [Nat.add_zero] at h0
  rw [h0, h1, h2, h3]
  simp only [be4, List.cons_append, List.nil_append,
    List.getD_cons_zero, List.getD_cons_succ]
  omega

theorem i32Pattern_lt (v : Int) : i32Pattern v < 4294967296 := by
  unfold i32Pattern
  omega

theorem i32OfPattern_i32Pattern (v : Int)
    (h : -2147483648 ≤ v ∧ v < 2147483648) :
    i32OfPattern (i32Pattern v) = v := by
  unfold i32OfPattern i32Pattern
  omega

/-! ## Round-trip of the argument section -/

/-- The amendment hypothesis of the round-trip claim: string payloads with an
interior NUL byte cannot survive a scan for the terminating null. -/
def OscArg.nullFree : OscArg → Prop
  | .String value => 0 ∉ value
  | _ => True

instance (a : OscArg) : Decidable a.nullFree := by
  cases a <;> simp only [OscArg.nullFree] <;> infer_instance

theorem argsBytesFrom_shift (as : List OscArg) (front chunk : List Nat) :
    front ++ (chunk ++ argsBytesFrom (front.length + chunk.length) as) =
      (front ++ chunk) ++ argsBytesFrom (front ++ chunk).length as := by
  simp [List.append_assoc, List.length_append]

theorem parseArgs_roundtrip : ∀ (args : List OscArg) (front : List Nat),
    front.length % 4 = 0 →
    (∀ a ∈ args, a.wf) →
    (∀ a ∈ args, a.nullFree) →
    parseArgs (front ++ argsBytesFrom front.length args) (args.map tagByte)
      front.length = .ok args := by
  intro args
  induction args with
  | nil => intro front _ _ _; simp [argsBytesFrom, parseArgs]
  | cons a as ih =>
    intro front hmod hwf hnf
    have hwfa : a.wf := hwf a (by simp)
    have hwfas : ∀ x ∈ as, x.wf := fun x hx => hwf x (by simp [hx])
    have hnfas : ∀ x ∈ as, x.nullFree := fun x hx => hnf x (by simp [hx])
    cases a with
    | Int v =>
      simp only [argsBytesFrom, argChunk, List.map_cons, tagByte, be4_length]
      set rest := argsBytesFrom (front.length + 4) as with hrest
      set D := front ++ (be4 (i32Pattern v) ++ rest) with hD
      have hDlen : D.length = front.length + 4 + rest.length := by
        rw [hD]; simp [List.length_append, be4_length]; omega
      have hrec : parseArgs D (as.map tagByte) (front.length + 4) = .ok as := by
        rw [hD, hrest]
        have hshift := argsBytesFrom_shift as front (be4 (i32Pattern v))
        rw [show front.length + 4 =
            front.length + (be4 (i32Pattern v)).length from by rw [be4_length]]
        rw [hshift,
          show front.length + (be4 (i32Pattern v)).length =
            (front ++ be4 (i32Pattern v)).length from
              (List.length_append _ _).symm]
        exact ih (front ++ be4 (i32Pattern v))
          (by simp [List.length_append, be4_length]; omega) hwfas hnfas
      simp only [parseArgs, if_pos rfl]
      rw [if_neg (by omega : ¬front.length + 4 > D.length)]
      rw [hrec, show be4At D front.length = i32Pattern v from
        hD ▸ be4At_append front rest (i32Pattern v) (i32Pattern_lt v)]
      rw [i32OfPattern_i32Pattern v hwfa]
      simp
    | Float bits =>
      have hbits : bits < 4294967296 := hwfa
      simp only [argsBytesFrom, argChunk, List.map_cons, tagByte, be4_length]
      set rest := argsBytesFrom (front.length + 4) as with hrest
      set D := front ++ (be4 bits ++ rest) with hD
      have hDlen : D.length = front.length + 4 + rest.length := by
        rw [hD]; simp [List.length_append, be4_length]; omega
      have hrec : parseArgs D (as.map tagByte) (front.length + 4) = .ok as := by
        rw [hD, hrest]
        have hshift := argsBytesFrom_shift as front (be4 bits)
        rw [show front.length + 4 =
            front.length + (be4 bits).length from by rw [be4_length]]
        rw [hshift,
          show front.length + (be4 bits).length = (front ++ be4 bits).length from
            (List.length_append _ _).symm]
        exact ih (front ++ be4 bits)
          (by simp [List.length_append, be4_length]; omega) hwfas hnfas
      simp only [parseArgs, if_neg (by decide : ¬(102 = 105)), if_pos rfl]
      rw [if_neg (by omega : ¬front.length + 4 > D.length)]
      rw [hrec, show be4At D front.length = bits from
        hD ▸ be4At_append front rest bits hbits]
      simp
    | String s =>
      have hvalid : validUtf8 s = true := hwfa
      have hnull : ∀ b ∈ s, b ≠ 0 := by
        intro b hb
        have : (0 : Nat) ∉ s := hnf (.String s) (by simp)
        intro hb0; exact this (hb0 ▸ hb)
      simp only [argsBytesFrom, argChunk, List.map_cons, tagByte]
      set pad := (4 - (front.length + s.length + 1) % 4) % 4 with hpad
      set chunk := s ++ [0] ++ List.replicate pad 0 with hchunk
      have hclen : chunk.length = s.length + 1 + pad := by
        simp [hchunk, List.length_append]
        omega
      rw [hclen]
      set rest := argsBytesFrom (front.length + (s.length + 1 + pad)) as with hrest
      set D := front ++ (chunk ++ rest) with hD
      have hdrop : D.drop front.length = chunk ++ rest := by
        rw [hD]
        have h0 := drop_append_plus front (chunk ++ rest) 0
        rw [Nat.add_zero, List.drop_zero] at h0
        exact h0
      have hsplit2 : chunk ++ rest = s ++ (0 :: (List.replicate pad 0 ++ rest)) := by
        simp [hchunk, List.append_assoc]
      have hfind : findZero D front.length = front.length + s.length := by
        unfold findZero
        rw [hdrop, hsplit2, scanZero_append_ne s _ hnull, scanZero_cons_zero]
      have hDlen : D.length = front.length + (s.length + 1 + pad) + rest.length := by
        simp [hD, List.length_append, hclen]
        omega
      have hfront' : (front ++ chunk).length = front.length + (s.length + 1 + pad) := by
        simp [List.length_append, hclen]
      have hnext : (front.length + s.length + 1 + 3) / 4 * 4 =
          (front ++ chunk).length := by
        rw [hfront', hpad]
        omega
      have hDalt : D = (front ++ chunk) ++ argsBytesFrom (front ++ chunk).length as := by
        rw [hD]
        have hshift := argsBytesFrom_shift as front chunk
        rw [← hshift, hrest, hclen]
      have hrec : parseArgs D (as.map tagByte) ((front.length + s.length + 1 + 3) / 4 * 4) =
          .ok as := by
        rw [hnext, hDalt]
        exact ih (front ++ chunk) (by rw [hfront', hpad]; omega) hwfas hnfas
      have hslice : (D.drop front.length).take
          (findZero D front.length - front.length) = s := by
        rw [hdrop, hfind, hsplit2]
        have : front.length + s.length - front.length = s.length := by omega
        rw [this]
        exact take_append_len s _
      simp only [parseArgs, if_neg (by decide : ¬(115 = 105)),
        if_neg (by decide : ¬(115 = 102)), if_pos rfl]
      rw [if_neg (by omega : ¬front.length ≥ D.length)]
      simp only [hfind]
      rw [if_neg (by omega : ¬front.length + s.length ≥ D.length)]
      have hfind' : findZero D front.length - front.length = s.length := by
        rw [hfind]; omega
      rw [show front.length + s.length + 1 + 3 = front.length + s.length + 1 + 3 from rfl]
      rw [hrec]
      have hval : utf8Lossy ((D.drop front.length).take
          (front.length + s.length - front.length)) = s := by
        have h1 : front.length + s.length - front.length =
            findZero D front.length - front.length := by rw [hfind]
        rw [h1, hslice, utf8Lossy_of_valid s hvalid]
      rw [hval]
      simp
    | Bool b =>
      have hrec := ih front hmod hwfas hnfas
      cases b with
      | true =>
        simp only [argsBytesFrom, argChunk, List.map_cons, tagByte, if_pos rfl,
          List.length_nil, Nat.add_zero, List.nil_append]
        simp only [parseArgs, if_neg (by decide : ¬(84 = 105)),
          if_neg (by decide : ¬(84 = 102)), if_neg (by decide : ¬(84 = 115)),
          if_pos (by decide : (84 = 84 ∨ 84 = 70))]
        rw [hrec]
        simp
      | false =>
        simp only [argsBytesFrom, argChunk, List.map_cons, tagByte,
          List.length_nil, Nat.add_zero, List.nil_append,
          if_neg (by decide : ¬(false = true))]
        simp only [parseArgs, if_neg (by decide : ¬(70 = 105)),
          if_neg (by decide : ¬(70 = 102)), if_neg (by decide : ¬(70 = 115)),
          if_pos (by decide : (70 = 84 ∨ 70 = 70))]
        rw [hrec]
        simp

/-- Decoding an encoded frame recovers the message, provided the address is
non-empty, address and string arguments are NUL-free, and every argument is
representable (`wf`). -/
theorem deserialize_serialize (m : OscMessage)
    (haddr_ne : m.address ≠ [])
    (haddr_nn : ∀ b ∈ m.address, b ≠ 0)
    (haddr_utf8 : validUtf8 m.address = true)
    (hwf : ∀ a ∈ m.args, a.wf)
    (hnf : ∀ a ∈ m.args, a.nullFree) :
    OscMessage.deserialize (OscMessage.serialize m) = .ok m := by
  obtain ⟨addr, args⟩ := m
  simp only at haddr_ne haddr_nn haddr_utf8 hwf hnf
  set tags := args.map tagByte with htags
  set A := padTo4 (addr ++ [0]) with hA
  set H := padTo4 (A ++ 44 :: tags ++ [0]) with hH
  set T := argsBytesFrom H.length args with hT
  set E := OscMessage.serialize ⟨addr, args⟩ with hE
  have e0 : E = H ++ T := serialize_decomp ⟨addr, args⟩
  have haddrlen : 0 < addr.length := List.length_pos.mpr haddr_ne
  have lenA : A.length = (addr.length + 1 + 3) / 4 * 4 := by
    rw [hA, padTo4_length]
    simp
  have lenAmod : A.length % 4 = 0 := padTo4_length_mod _
  have lenH : H.length = (A.length + tags.length + 2 + 3) / 4 * 4 := by
    rw [hH, padTo4_length]
    simp [List.length_append]
    omega
  have lenHmod : H.length % 4 = 0 := padTo4_length_mod _
  obtain ⟨W2, e2⟩ : ∃ W2 : List Nat, E = A ++ 44 :: (tags ++ 0 :: W2) := by
    refine ⟨List.replicate ((4 - (A ++ 44 :: tags ++ [0]).length % 4) % 4) 0 ++ T, ?_⟩
    rw [e0, hH]
    simp [padTo4, List.append_assoc]
  obtain ⟨W1, e1⟩ : ∃ W1 : List Nat, E = addr ++ 0 :: W1 := by
    refine ⟨List.replicate ((4 - (addr ++ [0]).length % 4) % 4) 0 ++
      (44 :: (tags ++ 0 ::
        (List.replicate ((4 - (A ++ 44 :: tags ++ [0]).length % 4) % 4) 0 ++ T))), ?_⟩
    rw [e0, hH, hA]
    simp [padTo4, List.append_assoc]
  have hlenE1 : E.length = addr.length + 1 + W1.length := by
    rw [e1]
    simp
    omega
  have hlenE2 : E.length = A.length + 1 + tags.length + 1 + W2.length := by
    rw [e2]
    simp
    omega
  have haddrEnd : findZero E 0 = addr.length := by
    unfold findZero
    rw [List.drop_zero, e1, scanZero_append_ne addr _ haddr_nn, scanZero_cons_zero]
    omega
  have htake : E.take addr.length = addr := by
    rw [e1]
    exact take_append_len addr _
  have hcomma : E.getD A.length 0 = 44 := by
    rw [e2]
    have h0 := getD_append_plus A (44 :: (tags ++ 0 :: W2)) 0
    simpa using h0
  have htypeEnd : findZero E (A.length + 1) = A.length + 1 + tags.length := by
    unfold findZero
    rw [e2, drop_append_plus A _ 1]
    have htagsnn : ∀ b ∈ tags, b ≠ 0 := by
      intro b hb
      rw [htags] at hb
      obtain ⟨a, _, rfl⟩ := List.mem_map.mp hb
      exact tagByte_ne_zero a
    simp only [List.drop_one, List.tail_cons]
    rw [scanZero_append_ne tags _ htagsnn, scanZero_cons_zero]
  have htagslice : (E.drop (A.length + 1)).take
      (A.length + 1 + tags.length - (A.length + 1)) = tags := by
    rw [e2, drop_append_plus A _ 1]
    simp only [List.drop_one, List.tail_cons]
    have harith : A.length + 1 + tags.length - (A.length + 1) = tags.length := by omega
    rw [harith]
    exact take_append_len tags _
  have hparse : parseArgs E tags H.length = .ok args := by
    rw [e0, hT, htags]
    exact parseArgs_roundtrip args H lenHmod hwf hnf
  rw [hE] at e0 e1 e2 hlenE1 hlenE2 haddrEnd htake hcomma htypeEnd htagslice hparse ⊢
  simp only [OscMessage.deserialize]
  rw [if_neg (by omega : ¬(OscMessage.serialize ⟨addr, args⟩).length < 4)]
  rw [haddrEnd]
  rw [if_neg (by push_neg; constructor <;> omega :
    ¬(addr.length ≥ (OscMessage.serialize ⟨addr, args⟩).length ∨ addr.length = 0))]
  rw [htake, utf8Lossy_of_valid addr haddr_utf8, ← lenA]
  rw [if_neg (by push_neg; refine ⟨by omega, ?_⟩; rw [hcomma] :
    ¬(A.length ≥ (OscMessage.serialize ⟨addr, args⟩).length ∨
      (OscMessage.serialize ⟨addr, args⟩).getD A.length 0 ≠ 44))]
  rw [htypeEnd]
  rw [if_neg (by omega :
    ¬A.length + 1 + tags.length ≥ (OscMessage.serialize ⟨addr, args⟩).length)]
  rw [htagslice]
  rw [show (A.length + 1 + tags.length + 1 + 3) / 4 * 4 = H.length from by omega]
  rw [hparse]

/-! ## The failure conditions of `deserialize`, as the specification states
them.  These definitions follow the claim's enumeration of conditions (they
are the spec side of the refinement; `OscMessage.deserialize` is the code
side). -/

/-- Spec-side failure condition for the argument walk: a declared `i`/`f` tag
with fewer than 4 remaining bytes, a declared `s` tag with no terminating
null before end of input, or a tag other than `i f s T F`. -/
def argsFailSpec (data : List Nat) : List Nat → Nat → Bool
  | [], _ => false
  | t :: ts, pos =>
    if t = 105 ∨ t = 102 then
      decide (data.length < pos + 4) || argsFailSpec data ts (pos + 4)
    else if t = 115 then
      decide (findZero data pos ≥ data.length) ||
        argsFailSpec data ts ((findZero data pos + 1 + 3) / 4 * 4)
    else if t = 84 ∨ t = 70 then argsFailSpec data ts pos
    else true

/-- Spec-side failure condition of `deserialize`: input shorter than 4
bytes; address unterminated or empty; no `','` byte at the computed type-tag
offset; unterminated type-tag string; or a failing argument walk. -/
def decodeFailSpec (data : List Nat) : Bool :=
  decide (data.length < 4) ||
  (let addrEnd := findZero data 0
   decide (addrEnd ≥ data.length ∨ addrEnd = 0) ||
   (let pos := (addrEnd + 1 + 3) / 4 * 4
    decide (pos ≥ data.length ∨ data.getD pos 0 ≠ 44) ||
    (let typeEnd := findZero data (pos + 1)
     decide (typeEnd ≥ data.length) ||
     argsFailSpec data ((data.drop (pos + 1)).take (typeEnd - (pos + 1)))
       ((typeEnd + 1 + 3) / 4 * 4))))

theorem parseArgs_error_iff (data : List Nat) : ∀ (ts : List Nat) (pos : Nat),
    (∃ e, parseArgs data ts pos = .error e) ↔ argsFailSpec data ts pos = true := by
  intro ts
  induction ts with
  | nil => intro pos; simp [parseArgs, argsFailSpec]
  | cons t ts ih =>
    intro pos
    by_cases h105 : t = 105
    · subst h105
      simp only [parseArgs, argsFailSpec, if_pos rfl,
        if_pos (by simp : (105 = 105 ∨ 105 = 102))]
      by_cases hlen : pos + 4 > data.length
      · simp [hlen, Nat.lt_of_lt_of_le]
      · rw [if_neg hlen]
        cases hrec : parseArgs data ts (pos + 4) with
        | error e =>
          simp only [hrec]
          constructor
          · intro _
            have := (ih (pos + 4)).mp ⟨e, hrec⟩
            simp [this]
          · intro _; exact ⟨e, rfl⟩
        | ok args =>
          simp only [hrec]
          have hspec : argsFailSpec data ts (pos + 4) = false := by
            by_contra hcon
            have : argsFailSpec data ts (pos + 4) = true := by
              revert hcon; cases argsFailSpec data ts (pos + 4) <;> simp
            obtain ⟨e, he⟩ := (ih (pos + 4)).mpr this
            rw [hrec] at he
            exact Except.noConfusion he
          simp [hspec]
          omega
    · by_cases h102 : t = 102
      · subst h102
        simp only [parseArgs, argsFailSpec, if_neg (by decide : ¬(102 = 105)),
          if_pos rfl, if_pos (by simp : (102 = 105 ∨ 102 = 102))]
        by_cases hlen : pos + 4 > data.length
        · simp [hlen]
        · rw [if_neg hlen]
          cases hrec : parseArgs data ts (pos + 4) with
          | error e =>
            simp only [hrec]
            constructor
            · intro _
              have := (ih (pos + 4)).mp ⟨e, hrec⟩
              simp [this]
            · intro _; exact ⟨e, rfl⟩
          | ok args =>
            simp only [hrec]
            have hspec : argsFailSpec data ts (pos + 4) = false := by
              by_contra hcon
              have : argsFailSpec data ts (pos + 4) = true := by
                revert hcon; cases argsFailSpec data ts (pos + 4) <;> simp
              obtain ⟨e, he⟩ := (ih (pos + 4)).mpr this
              rw [hrec] at he
              exact Except.noConfusion he
            simp [hspec]
            omega
      · by_cases h115 : t = 115
        · subst h115
          simp only [parseArgs, argsFailSpec, if_neg (by decide : ¬(115 = 105)),
            if_neg (by decide : ¬(115 = 102)), if_pos rfl,
            if_neg (by simp : ¬(115 = 105 ∨ 115 = 102))]
          by_cases hpos : pos ≥ data.length
          · have hfz : findZero data pos = pos := findZero_of_ge data pos hpos
            rw [if_pos hpos]
            simp [hfz, hpos]
          · rw [if_neg hpos]
            by_cases hterm : findZero data pos ≥ data.length
            · simp [hterm]
            · rw [if_neg hterm]
              cases hrec : parseArgs data ts ((findZero data pos + 1 + 3) / 4 * 4) with
              | error e =>
                simp only [hrec]
                constructor
                · intro _
                  have := (ih _).mp ⟨e, hrec⟩
                  simp [this]
                · intro _; exact ⟨e, rfl⟩
              | ok args =>
                simp only [hrec]
                have hspec : argsFailSpec data ts
                    ((findZero data pos + 1 + 3) / 4 * 4) = false := by
                  by_contra hcon
                  have : argsFailSpec data ts
                      ((findZero data pos + 1 + 3) / 4 * 4) = true := by
                    revert hcon
                    cases argsFailSpec data ts ((findZero data pos + 1 + 3) / 4 * 4) <;> simp
                  obtain ⟨e, he⟩ := (ih _).mpr this
                  rw [hrec] at he
                  exact Except.noConfusion he
                simp [hspec, hterm]
        · by_cases hTF : t = 84 ∨ t = 70
          · simp only [parseArgs, argsFailSpec,
              if_neg h105, if_neg h102, if_neg h115, if_pos hTF,
              if_neg (by omega : ¬(t = 105 ∨ t = 102))]
            cases hrec : parseArgs data ts pos with
            | error e =>
              simp only [hrec]
              constructor
              · intro _
                have := (ih pos).mp ⟨e, hrec⟩
                simp [this]
              · intro _; exact ⟨e, rfl⟩
            | ok args =>
              simp only [hrec]
              have hspec : argsFailSpec data ts pos = false := by
                by_contra hcon
                have : argsFailSpec data ts pos = true := by
                  revert hcon; cases argsFailSpec data ts pos <;> simp
                obtain ⟨e, he⟩ := (ih pos).mpr this
                rw [hrec] at he
                exact Except.noConfusion he
              simp [hspec]
          · simp only [parseArgs, argsFailSpec,
              if_neg h105, if_neg h102, if_neg h115, if_neg hTF,
              if_neg (by omega : ¬(t = 105 ∨ t = 102))]
            simp

theorem argsFailSpec_of_ok {data ts : List Nat} {pos : Nat} {args : List OscArg}
    (h : parseArgs data ts pos = .ok args) : argsFailSpec data ts pos = false := by
  by_contra hcon
  have htrue : argsFailSpec data ts pos = true := by
    revert hcon; cases argsFailSpec data ts pos <;> simp
  obtain ⟨e, he⟩ := (parseArgs_error_iff data ts pos).mpr htrue
  rw [h] at he
  exact Except.noConfusion he

/-- The decoder fails exactly under the spec's enumerated conditions. -/
theorem deserialize_error_iff (data : List Nat) :
    (∃ e, OscMessage.deserialize data = .error e) ↔ decodeFailSpec data = true := by
  simp only [OscMessage.deserialize, decodeFailSpec]
  by_cases h4 : data.length < 4
  · rw [if_pos h4, decide_eq_true h4, Bool.true_or]
    simp
  · rw [if_neg h4, decide_eq_false h4, Bool.false_or]
    by_cases hA : findZero data 0 ≥ data.length ∨ findZero data 0 = 0
    · rw [if_pos hA, decide_eq_true hA, Bool.true_or]
      simp
    · rw [if_neg hA, decide_eq_false hA, Bool.false_or]
      by_cases hC : (findZero data 0 + 1 + 3) / 4 * 4 ≥ data.length ∨
          data.getD ((findZero data 0 + 1 + 3) / 4 * 4) 0 ≠ 44
      · rw [if_pos hC, decide_eq_true hC, Bool.true_or]
        simp
      · rw [if_neg hC, decide_eq_false hC, Bool.false_or]
        by_cases hT : findZero data ((findZero data 0 + 1 + 3) / 4 * 4 + 1) ≥ data.length
        · rw [if_pos hT, decide_eq_true hT, Bool.true_or]
          simp
        · rw [if_neg hT, decide_eq_false hT, Bool.false_or]
          cases hrec : parseArgs data
              ((data.drop ((findZero data 0 + 1 + 3) / 4 * 4 + 1)).take
                (findZero data ((findZero data 0 + 1 + 3) / 4 * 4 + 1) -
                  ((findZero data 0 + 1 + 3) / 4 * 4 + 1)))
              ((findZero data ((findZero data 0 + 1 + 3) / 4 * 4 + 1) + 1 + 3) / 4 * 4) with
          | error e =>
            have hspec := (parseArgs_error_iff data _ _).mp ⟨e, hrec⟩
            rw [hspec]
            simp
          | ok args =>
            have hspec := argsFailSpec_of_ok hrec
            rw [hspec]
            simp

/-- The decoder is total: it yields a message exactly when no spec failure
condition holds. -/
theorem deserialize_ok_iff (data : List Nat) :
    (∃ m, OscMessage.deserialize data = .ok m) ↔ decodeFailSpec data = false := by
  constructor
  · intro ⟨m, hm⟩
    by_contra hcon
    have htrue : decodeFailSpec data = true := by
      revert hcon; cases decodeFailSpec data <;> simp
    obtain ⟨e, he⟩ := (deserialize_error_iff data).mpr htrue
    rw [hm] at he
    exact Except.noConfusion he
  · intro hfalse
    cases hd : OscMessage.deserialize data with
    | ok m => exact ⟨m, rfl⟩
    | error e =>
      have := (deserialize_error_iff data).mp ⟨e, hd⟩
      rw [hfalse] at this
      exact Bool.noConfusion this

/-! ## Stability of decoding under trailing bytes -/

theorem be4At_append_stable (data e : List Nat) (pos : Nat)
    (h : pos + 4 ≤ data.length) : be4At (data ++ e) pos = be4At data pos := by
  unfold be4At
  rw [getD_append_lt _ _ _ (by omega), getD_append_lt _ _ _ (by omega),
    getD_append_lt _ _ _ (by omega), getD_append_lt _ _ _ (by omega)]

theorem parseArgs_append_stable (data e : List Nat) :
    ∀ (ts : List Nat) (pos : Nat) (args : List OscArg),
      parseArgs data ts pos = .ok args → parseArgs (data ++ e) ts pos = .ok args := by
  intro ts
  induction ts with
  | nil =>
    intro pos args h
    simpa [parseArgs] using h
  | cons t ts ih =>
    intro pos args h
    by_cases h105 : t = 105
    · subst h105
      simp only [parseArgs, if_pos rfl] at h ⊢
      by_cases hlen : pos + 4 > data.length
      · rw [if_pos hlen] at h; exact absurd h (by simp)
      · rw [if_neg hlen] at h
        rw [if_neg (by simp [List.length_append]; omega : ¬pos + 4 > (data ++ e).length)]
        cases hrec : parseArgs data ts (pos + 4) with
        | error e' => rw [hrec] at h; exact absurd h (by simp)
        | ok args' =>
          rw [hrec] at h
          rw [ih (pos + 4) args' hrec, be4At_append_stable data e pos (by omega)]
          exact h
    · by_cases h102 : t = 102
      · subst h102
        simp only [parseArgs, if_neg (by decide : ¬(102 = 105)), if_pos rfl] at h ⊢
        by_cases hlen : pos + 4 > data.length
        · rw [if_pos hlen] at h; exact absurd h (by simp)
        · rw [if_neg hlen] at h
          rw [if_neg (by simp [List.length_append]; omega : ¬pos + 4 > (data ++ e).length)]
          cases hrec : parseArgs data ts (pos + 4) with
          | error e' => rw [hrec] at h; exact absurd h (by simp)
          | ok args' =>
            rw [hrec] at h
            rw [ih (pos + 4) args' hrec, be4At_append_stable data e pos (by omega)]
            exact h
      · by_cases h115 : t = 115
        · subst h115
          simp only [parseArgs, if_neg (by decide : ¬(115 = 105)),
            if_neg (by decide : ¬(115 = 102)), if_pos rfl] at h ⊢
          by_cases hpos : pos ≥ data.length
          · rw [if_pos hpos] at h; exact absurd h (by simp)
          · rw [if_neg hpos] at h
            by_cases hterm : findZero data pos ≥ data.length
            · rw [if_pos hterm] at h; exact absurd h (by simp)
            · rw [if_neg hterm] at h
              have hfz : findZero (data ++ e) pos = findZero data pos :=
                findZero_append data e pos (by omega) (by omega)
              rw [if_neg (by simp [List.length_append]; omega :
                ¬pos ≥ (data ++ e).length), hfz]
              rw [if_neg (by simp [List.length_append]; omega :
                ¬findZero data pos ≥ (data ++ e).length)]
              cases hrec : parseArgs data ts ((findZero data pos + 1 + 3) / 4 * 4) with
              | error e' => rw [hrec] at h; exact absurd h (by simp)
              | ok args' =>
                rw [hrec] at h
                rw [ih _ args' hrec, drop_append_le data e pos (by omega)]
                have hdlen : (data.drop pos).length = data.length - pos := by simp
                rw [take_append_le (data.drop pos) e _ (by omega)]
                exact h
        · by_cases hTF : t = 84 ∨ t = 70
          · simp only [parseArgs, if_neg h105, if_neg h102, if_neg h115,
              if_pos hTF] at h ⊢
            cases hrec : parseArgs data ts pos with
            | error e' => rw [hrec] at h; exact absurd h (by simp)
            | ok args' =>
              rw [hrec] at h
              rw [ih pos args' hrec]
              exact h
          · simp only [parseArgs, if_neg h105, if_neg h102, if_neg h115,
              if_neg hTF] at h
            exact absurd h (by simp)

/-- Appending arbitrary bytes after a frame that decodes successfully does
not change the decoded message: the decoder never inspects bytes past the
arguments declared in the type-tag string. -/
theorem deserialize_append_stable (data extra : List Nat) (m : OscMessage)
    (h : OscMessage.deserialize data = .ok m) :
    OscMessage.deserialize (data ++ extra) = .ok m := by
  simp only [OscMessage.deserialize] at h ⊢
  by_cases h4 : data.length < 4
  · rw [if_pos h4] at h; exact absurd h (by simp)
  · rw [if_neg h4] at h
    rw [if_neg (by simp [List.length_append]; omega : ¬(data ++ extra).length < 4)]
    by_cases hA : findZero data 0 ≥ data.length ∨ findZero data 0 = 0
    · rw [if_pos hA] at h; exact absurd h (by simp)
    · rw [if_neg hA] at h
      push_neg at hA
      have hfz0 : findZero (data ++ extra) 0 = findZero data 0 :=
        findZero_append data extra 0 (by omega) (by omega)
      rw [hfz0]
      rw [if_neg (by
        push_neg
        refine ⟨by simp [List.length_append]; omega, hA.2⟩)]
      rw [take_append_le data extra _ (by omega)]
      by_cases hC : (findZero data 0 + 1 + 3) / 4 * 4 ≥ data.length ∨
          data.getD ((findZero data 0 + 1 + 3) / 4 * 4) 0 ≠ 44
      · rw [if_pos hC] at h; exact absurd h (by simp)
      · rw [if_neg hC] at h
        push_neg at hC
        rw [if_neg (by
          push_neg
          refine ⟨by simp [List.length_append]; omega, ?_⟩
          rw [getD_append_lt _ _ _ (by omega)]
          exact hC.2)]
        by_cases hT : findZero data ((findZero data 0 + 1 + 3) / 4 * 4 + 1) ≥ data.length
        · rw [if_pos hT] at h; exact absurd h (by simp)
        · rw [if_neg hT] at h
          have hfz1 : findZero (data ++ extra) ((findZero data 0 + 1 + 3) / 4 * 4 + 1) =
              findZero data ((findZero data 0 + 1 + 3) / 4 * 4 + 1) :=
            findZero_append data extra _ (by omega) (by omega)
          rw [hfz1]
          rw [if_neg (by simp [List.length_append]; omega :
            ¬findZero data ((findZero data 0 + 1 + 3) / 4 * 4 + 1) ≥
              (data ++ extra).length)]
          rw [drop_append_le data extra _ (by omega)]
          have hdlen : (data.drop ((findZero data 0 + 1 + 3) / 4 * 4 + 1)).length =
              data.length - ((findZero data 0 + 1 + 3) / 4 * 4 + 1) := by simp
          rw [take_append_le _ extra _ (by omega)]
          cases hrec : parseArgs data
              ((data.drop ((findZero data 0 + 1 + 3) / 4 * 4 + 1)).take
                (findZero data ((findZero data 0 + 1 + 3) / 4 * 4 + 1) -
                  ((findZero data 0 + 1 + 3) / 4 * 4 + 1)))
              ((findZero data ((findZero data 0 + 1 + 3) / 4 * 4 + 1) + 1 + 3) / 4 * 4) with
          | error e' => rw [hrec] at h; exact absurd h (by simp)
          | ok args =>
            rw [hrec] at h
            rw [parseArgs_append_stable data extra _ _ _ hrec]
            exact h

/-! ## Frame offsets -/

/-- Offset of the `','` byte in the frame of `m`: the length of the padded
address section. -/
def tagSectionOffset (m : OscMessage) : Nat := (padTo4 (m.address ++ [0])).length

/-- Offset at which the argument section of the frame of `m` starts: the
length of the padded header (address and type-tag sections). -/
def argsBaseOffset (m : OscMessage) : Nat :=
  (padTo4 (padTo4 (m.address ++ [0]) ++ 44 :: m.args.map tagByte ++ [0])).length

/-- The offsets at which the encoded arguments' payloads start, walking the
argument chunks from `pos`. -/
def argOffsetsFrom : Nat → List OscArg → List Nat
  | _, [] => []
  | pos, a :: as => pos :: argOffsetsFrom (pos + (argChunk pos a).length) as

/-- The payload start offset of each argument of `m` in its frame. -/
def argOffsets (m : OscMessage) : List Nat :=
  argOffsetsFrom (argsBaseOffset m) m.args

theorem argChunk_next_mod (pos : Nat) (a : OscArg) (h : pos % 4 = 0) :
    (pos + (argChunk pos a).length) % 4 = 0 := by
  cases a with
  | Int value => simp [argChunk, be4_length]; omega
  | Float bits => simp [argChunk, be4_length]; omega
  | String value =>
    simp [argChunk, List.length_append]
    omega
  | Bool value => simpa [argChunk] using h

theorem argOffsetsFrom_mod (args : List OscArg) :
    ∀ pos, pos % 4 = 0 → ∀ o ∈ argOffsetsFrom pos args, o % 4 = 0 := by
  induction args with
  | nil => intro pos _ o ho; simp [argOffsetsFrom] at ho
  | cons a as ih =>
    intro pos hpos o ho
    simp only [argOffsetsFrom, List.mem_cons] at ho
    cases ho with
    | inl h => rw [h]; exact hpos
    | inr h => exact ih _ (argChunk_next_mod pos a hpos) o h

/-- The byte at `tagSectionOffset` of any frame is `','`. -/
theorem serialize_getD_tagOffset (m : OscMessage) :
    (OscMessage.serialize m).getD (tagSectionOffset m) 0 = 44 := by
  obtain ⟨W, hW⟩ : ∃ W : List Nat,
      OscMessage.serialize m = padTo4 (m.address ++ [0]) ++ 44 :: W := by
    refine ⟨(m.args.map tagByte ++ [0] ++
      List.replicate ((4 - (padTo4 (m.address ++ [0]) ++
        44 :: m.args.map tagByte ++ [0]).length % 4) % 4) 0) ++
      argsBytesFrom (argsBaseOffset m) m.args, ?_⟩
    rw [serialize_decomp m]
    simp [argsBaseOffset, padTo4, List.append_assoc]
  rw [hW]
  unfold tagSectionOffset
  have h0 := getD_append_plus (padTo4 (m.address ++ [0])) (44 :: W) 0
  simpa using h0

/-- A frame with a single boolean argument is the padded address section
followed by exactly the four tag-section bytes `',' tag 0 0`; the boolean
contributes no argument bytes. -/
theorem serialize_single_bool (addr : List Nat) (b : Bool) :
    OscMessage.serialize ⟨addr, [.Bool b]⟩ =
      padTo4 (addr ++ [0]) ++ [44, if b then 84 else 70, 0, 0] := by
  have hAmod := padTo4_length_mod (addr ++ [0])
  rw [serialize_decomp]
  simp only [argsBytesFrom, argChunk, List.map_cons, List.map_nil,
    List.append_nil, List.nil_append]
  rw [padTo4_eq_append (padTo4 (addr ++ [0]) ++ [44, tagByte (.Bool b)]) [0]]
  have hcount : (4 - ((padTo4 (addr ++ [0]) ++ [44, tagByte (.Bool b)]).length +
      ([0] : List Nat).length) % 4) % 4 = 1 := by
    simp only [List.length_append, List.length_cons, List.length_nil,
      List.length_singleton]
    omega
  rw [hcount]
  cases b <;> simp [tagByte, List.replicate, List.append_assoc]

/-! ## Claims -/

/-- C1 (amended): for every Message whose address is non-empty and, as the
counterexample forces, whose address and string arguments contain no NUL
byte, `deserialize (serialize m)` returns `Ok` of a Message equal to `m` in
address and argument sequence — including negative integers (`Int` range
hypothesis is `i32` representability) and negative floats (any 32-bit
pattern).  `validUtf8` holds for every Rust `String` by construction. -/
theorem claim_roundtrip (m : OscMessage)
    (h_ne : m.address ≠ [])
    (h_addr_nn : (0 : Nat) ∉ m.address)
    (h_addr_utf8 : validUtf8 m.address = true)
    (h_args : ∀ a ∈ m.args, a.wf ∧ a.nullFree) :
    OscMessage.deserialize (OscMessage.serialize m) = .ok m :=
  deserialize_serialize m h_ne
    (fun _ hb hb0 => h_addr_nn (hb0 ▸ hb))
    h_addr_utf8
    (fun a ha => (h_args a ha).1)
    (fun a ha => (h_args a ha).2)

/-- C1 witness: the round-trip at a concrete message with a negative
integer, a negative float (bit pattern of `-1.5f32`), a string and both
booleans. -/
theorem claim_roundtrip_witness :
    OscMessage.deserialize (OscMessage.serialize
      ⟨[47, 116], [.Int (-5), .Float 3217031168, .String [104, 105],
        .Bool true, .Bool false]⟩) =
      .ok ⟨[47, 116], [.Int (-5), .Float 3217031168, .String [104, 105],
        .Bool true, .Bool false]⟩ :=
  claim_roundtrip _ (by decide) (by decide) (by decide) (by decide)

/-- C1 counterexample: the claim as frozen quantifies over every Rust
`String` argument, but a string containing an interior NUL (here `"\x00"`)
is truncated at the first null on decode, so `decode (encode m) ≠ Ok m`. -/
theorem claim_roundtrip_counterexample :
    OscMessage.deserialize (OscMessage.serialize ⟨[47], [.String [0]]⟩) ≠
      .ok ⟨[47], [.String [0]]⟩ := by
  decide

/-- C2: `deserialize` returns an error exactly when one of the claim's
enumerated conditions holds (`decodeFailSpec`, stated from the claim's
wording over the raw bytes); otherwise it returns `Ok`.  The embedding is a
total function into `Except`, so no panic and no partially constructed
message exist. -/
theorem claim_decode_error_iff (data : List Nat) :
    (∃ e, OscMessage.deserialize data = .error e) ↔ decodeFailSpec data = true :=
  deserialize_error_iff data

/-- C3: one iteration of the receiver loop publishes a payload iff the
datagram deserializes successfully, and the published payload is the
original raw bytes; on failure the datagram is dropped. -/
theorem claim_listener_gate (datagram : List Nat) :
    (∀ payload, receiverStep datagram = some payload ↔
      ((∃ m, OscMessage.deserialize datagram = .ok m) ∧ payload = datagram)) ∧
    (receiverStep datagram = none ↔
      ∃ e, OscMessage.deserialize datagram = .error e) := by
  cases h : OscMessage.deserialize datagram with
  | error e =>
    constructor
    · intro payload
      simp [receiverStep, h]
    · simp [receiverStep, h]
  | ok m =>
    constructor
    · intro payload
      simp [receiverStep, h, eq_comm]
    · simp [receiverStep, h]

/-- C4: in every frame, the type-tag section starts at a multiple of 4 (and
that byte is `','`), the frame is the padded header followed by the argument
chunks, and each argument's payload starts at a multiple of 4 (string
arguments pad so the next argument again starts at a multiple of 4). -/
theorem claim_alignment (m : OscMessage) :
    tagSectionOffset m % 4 = 0 ∧
    (OscMessage.serialize m).getD (tagSectionOffset m) 0 = 44 ∧
    OscMessage.serialize m =
      padTo4 (padTo4 (m.address ++ [0]) ++ 44 :: m.args.map tagByte ++ [0]) ++
        argsBytesFrom (argsBaseOffset m) m.args ∧
    ∀ o ∈ argOffsets m, o % 4 = 0 := by
  refine ⟨padTo4_length_mod _, serialize_getD_tagOffset m, serialize_decomp m, ?_⟩
  exact argOffsetsFrom_mod m.args (argsBaseOffset m) (padTo4_length_mod _)

/-- C4 witness: the alignment facts at the concrete message
`{address := "/", args := [Int 5]}`, whose single argument starts at
offset 8. -/
theorem claim_alignment_witness :
    tagSectionOffset ⟨[47], [.Int 5]⟩ % 4 = 0 ∧
    (OscMessage.serialize ⟨[47], [.Int 5]⟩).getD (tagSectionOffset ⟨[47], [.Int 5]⟩) 0 = 44 ∧
    (8 : Nat) % 4 = 0 :=
  ⟨(claim_alignment ⟨[47], [.Int 5]⟩).1,
   (claim_alignment ⟨[47], [.Int 5]⟩).2.1,
   (claim_alignment ⟨[47], [.Int 5]⟩).2.2.2 8 (by decide)⟩

/-- C5: the message `{address := "/test", args := [Int 101]}` encodes to
exactly the 16 bytes `2F 74 65 73 74 00 00 00 2C 69 00 00 00 00 00 65`, and
decoding those bytes reproduces the message. -/
theorem claim_end_to_end_example :
    OscMessage.serialize ⟨[47, 116, 101, 115, 116], [.Int 101]⟩ =
      [47, 116, 101, 115, 116, 0, 0, 0, 44, 105, 0, 0, 0, 0, 0, 101] ∧
    OscMessage.deserialize
        [47, 116, 101, 115, 116, 0, 0, 0, 44, 105, 0, 0, 0, 0, 0, 101] =
      .ok ⟨[47, 116, 101, 115, 116], [.Int 101]⟩ := by
  constructor <;> decide

/-- C6 counterexample: with both lists empty, `validate` returns
`NoListenPorts`, not `NoTargets`, so "returns NoTargets when targets is
empty" fails as stated (the listen-port check runs first). -/
theorem claim_config_validate_counterexample :
    Config.validate ⟨[], []⟩ = .error .NoListenPorts ∧
    Config.validate ⟨[], []⟩ ≠ .error .NoTargets := by
  constructor <;> decide

/-- C6 (amended): `validate` returns `Ok` iff the listen-port list is
non-empty, the target list is non-empty and no port is 0; it returns
`NoListenPorts` when the port list is empty, `NoTargets` when the port list
is non-empty and the target list is empty, and `InvalidPort 0` when both
lists are non-empty and some port is 0 (the checks run in that order). -/
theorem claim_config_validate (c : Config) :
    (Config.validate c = .ok () ↔
      c.listen_ports ≠ [] ∧ c.targets ≠ [] ∧ ∀ p ∈ c.listen_ports, p ≠ 0) ∧
    (c.listen_ports = [] → Config.validate c = .error .NoListenPorts) ∧
    (c.listen_ports ≠ [] → c.targets = [] → Config.validate c = .error .NoTargets) ∧
    (c.listen_ports ≠ [] → c.targets ≠ [] → (0 : Nat) ∈ c.listen_ports →
      Config.validate c = .error (.InvalidPort 0)) := by
  unfold Config.validate
  by_cases hp : c.listen_ports.isEmpty
  · have hpe : c.listen_ports = [] := List.isEmpty_iff.mp hp
    rw [if_pos hp]
    exact ⟨by simp [hpe], fun _ => rfl,
      fun hne => absurd hpe hne, fun hne => absurd hpe hne⟩
  · have hpe : c.listen_ports ≠ [] := by
      intro hcon
      rw [hcon] at hp
      simp at hp
    rw [if_neg hp]
    by_cases ht : c.targets.isEmpty
    · have hte : c.targets = [] := List.isEmpty_iff.mp ht
      rw [if_pos ht]
      exact ⟨by simp [hte], fun h => absurd h hpe,
        fun _ _ => rfl, fun _ hne => absurd hte hne⟩
    · have hte : c.targets ≠ [] := by
        intro hcon
        rw [hcon] at ht
        simp at ht
      rw [if_neg ht]
      cases hf : c.listen_ports.find? (fun p => p = 0) with
      | none =>
        have hnone := List.find?_eq_none.mp hf
        refine ⟨?_, fun h => absurd h hpe, fun _ h => absurd h hte, ?_⟩
        · constructor
          · intro _
            refine ⟨hpe, hte, fun p hp0 => ?_⟩
            have := hnone p hp0
            simpa using this
          · intro _
            rfl
        · intro _ _ h0
          have := hnone 0 h0
          simp at this
      | some p =>
        have hp0 : p = 0 := by simpa using List.find?_some hf
        subst hp0
        have hmem : (0 : Nat) ∈ c.listen_ports := List.mem_of_find?_eq_some hf
        refine ⟨?_, fun h => absurd h hpe, fun _ h => absurd h hte,
          fun _ _ _ => rfl⟩
        constructor
        · intro hcon
          exact Except.noConfusion hcon
        · intro ⟨_, _, hall⟩
          exact absurd rfl (hall 0 hmem)

/-- C6 witness: a valid configuration is accepted, an empty-target
configuration with ports is rejected with `NoTargets`, and a zero port with
both lists non-empty is rejected with `InvalidPort 0`. -/
theorem claim_config_validate_witness :
    Config.validate ⟨[9000], [⟨1⟩]⟩ = .ok () ∧
    Config.validate ⟨[9000], []⟩ = .error .NoTargets ∧
    Config.validate ⟨[0], [⟨1⟩]⟩ = .error (.InvalidPort 0) :=
  ⟨(claim_config_validate ⟨[9000], [⟨1⟩]⟩).1.mpr (by decide),
   (claim_config_validate ⟨[9000], []⟩).2.2.1 (by decide) rfl,
   (claim_config_validate ⟨[0], [⟨1⟩]⟩).2.2.2 (by decide) (by decide) (by decide)⟩

/-- C7: `Distributor::send` is a total function (it discards the result of
the broadcast send, so it never surfaces an error and, per tokio's
documented semantics, never blocks); it never touches the sender list,
capacity, or subscription count, and with zero current subscribers the
payload is silently discarded leaving the distributor unchanged. -/
theorem claim_distributor_send (d : Distributor) (payload : List Nat) :
    (Distributor.send d payload).senders = d.senders ∧
    (Distributor.send d payload).chan.capacity = d.chan.capacity ∧
    (Distributor.send d payload).chan.receiverCount = d.chan.receiverCount ∧
    (d.chan.receiverCount = 0 → Distributor.send d payload = d) := by
  refine ⟨rfl, ?_, ?_, ?_⟩
  · unfold Distributor.send BroadcastChannel.send
    split <;> rfl
  · unfold Distributor.send BroadcastChannel.send
    split <;> rfl
  · intro h0
    unfold Distributor.send BroadcastChannel.send
    rw [if_pos h0]

/-- C7 witness: publishing to a distributor with zero subscribers leaves it
unchanged. -/
theorem claim_distributor_send_witness :
    Distributor.send ⟨[⟨7⟩], ⟨1000, 0, []⟩⟩ [1, 2, 3] = ⟨[⟨7⟩], ⟨1000, 0, []⟩⟩ :=
  (claim_distributor_send ⟨[⟨7⟩], ⟨1000, 0, []⟩⟩ [1, 2, 3]).2.2.2 rfl

/-- C8: for any address, the frames of the single-argument messages
`[Bool true]` and `[Bool false]` are the padded address section plus exactly
the four bytes `',' tag 0 0`: equal total length (the boolean contributes no
argument bytes — the frame ends with the tag section), identical at every
offset except `tagSectionOffset + 1`, where the byte is `'T'` (84) or `'F'`
(70). -/
theorem claim_bool_zero_payload (addr : List Nat) (b : Bool) :
    OscMessage.serialize ⟨addr, [.Bool b]⟩ =
      padTo4 (addr ++ [0]) ++ [44, if b then 84 else 70, 0, 0] ∧
    (OscMessage.serialize ⟨addr, [.Bool true]⟩).length =
      (OscMessage.serialize ⟨addr, [.Bool false]⟩).length ∧
    (OscMessage.serialize ⟨addr, [.Bool b]⟩).length =
      tagSectionOffset ⟨addr, [.Bool b]⟩ + 4 ∧
    (OscMessage.serialize ⟨addr, [.Bool b]⟩).getD
      (tagSectionOffset ⟨addr, [.Bool b]⟩ + 1) 0 = (if b then 84 else 70) ∧
    ∀ i, i ≠ tagSectionOffset ⟨addr, [.Bool true]⟩ + 1 →
      (OscMessage.serialize ⟨addr, [.Bool true]⟩).getD i 0 =
        (OscMessage.serialize ⟨addr, [.Bool false]⟩).getD i 0 := by
  have hT := serialize_single_bool addr true
  have hF := serialize_single_bool addr false
  have hB := serialize_single_bool addr b
  refine ⟨hB, ?_, ?_, ?_, ?_⟩
  · rw [hT, hF]
    simp
  · rw [hB]
    unfold tagSectionOffset
    simp
  · rw [hB]
    unfold tagSectionOffset
    have h1 := getD_append_plus (padTo4 (addr ++ [0]))
      [44, if b then 84 else 70, 0, 0] 1
    rw [h1]
    rfl
  · intro i hi
    rw [hT, hF]
    by_cases hlt : i < (padTo4 (addr ++ [0])).length
    · rw [getD_append_lt _ _ _ hlt, getD_append_lt _ _ _ hlt]
    · have hk : i = (padTo4 (addr ++ [0])).length + (i - (padTo4 (addr ++ [0])).length) := by
        omega
      rw [hk, getD_append_plus, getD_append_plus]
      have hi' : i ≠ (padTo4 (addr ++ [0])).length + 1 := by
        simpa [tagSectionOffset] using hi
      have hk1 : i - (padTo4 (addr ++ [0])).length ≠ 1 := by omega
      rcases hk2 : i - (padTo4 (addr ++ [0])).length with _ | _ | _ | _ | k
      · rfl
      · exact absurd hk2 (by omega)
      · rfl
      · rfl
      · rfl

/-- C8 witness: the two single-boolean frames for address `"/"`, checked at
the tag byte and at offset 0. -/
theorem claim_bool_zero_payload_witness :
    OscMessage.serialize ⟨[47], [.Bool true]⟩ =
      padTo4 ([47] ++ [0]) ++ [44, 84, 0, 0] ∧
    (OscMessage.serialize ⟨[47], [.Bool true]⟩).getD 0 0 =
      (OscMessage.serialize ⟨[47], [.Bool false]⟩).getD 0 0 :=
  ⟨(claim_bool_zero_payload [47] true).1,
   (claim_bool_zero_payload [47] true).2.2.2.2 0 (by decide)⟩

/-- C9 (implicit): a frame that decodes successfully still decodes to the
same message after arbitrary extra bytes are appended; the decoder never
rejects unconsumed trailing bytes. -/
theorem claim_trailing_bytes (data extra : List Nat) (m : OscMessage)
    (h : OscMessage.deserialize data = .ok m) :
    OscMessage.deserialize (data ++ extra) = .ok m :=
  deserialize_append_stable data extra m h

/-- C9 witness: the 16-byte example frame with three junk bytes appended
still decodes to the same message. -/
theorem claim_trailing_bytes_witness :
    OscMessage.deserialize
        ([47, 116, 101, 115, 116, 0, 0, 0, 44, 105, 0, 0, 0, 0, 0, 101] ++
          [255, 7, 9]) =
      .ok ⟨[47, 116, 101, 115, 116], [.Int 101]⟩ :=
  claim_trailing_bytes _ [255, 7, 9] _ (by decide)

/-- C10 (implicit): decode success depends only on the structural conditions
of `decodeFailSpec`, which never inspect UTF-8 validity, so invalid UTF-8 in
the address or a string argument never causes failure; on a well-framed
input whose address bytes (`2F FF`) and string argument (`80`) are invalid
UTF-8, decoding succeeds with U+FFFD (`EF BF BD`) substituted, and
re-serializing that message does not reproduce the input bytes. -/
theorem claim_lossy_utf8 :
    (∀ data, (∃ m, OscMessage.deserialize data = .ok m) ↔
      decodeFailSpec data = false) ∧
    OscMessage.deserialize [47, 255, 0, 0, 44, 115, 0, 0, 128, 0, 0, 0] =
      .ok ⟨[47, 239, 191, 189], [.String [239, 191, 189]]⟩ ∧
    OscMessage.serialize ⟨[47, 239, 191, 189], [.String [239, 191, 189]]⟩ ≠
      [47, 255, 0, 0, 44, 115, 0, 0, 128, 0, 0, 0] :=
  ⟨deserialize_ok_iff, by decide, by decide⟩
